import Mathlib

/-!
Verification of the core connection layer of the repository
(`src/zendriver/core/connection.py`).

We give a shallow embedding of the `Transaction`, `EventTransaction`,
`Connection` and `Listener` logic and prove the specified properties of
response resolution, id assignment, event bookkeeping, handler dispatch
and domain (subsystem) registration.

Conventions of the embedding:
* Python `dict`s become association lists (`alookup` / `aset` / `aerase`),
  which preserve the insertion order that `dict` iteration exposes.
* Fallible Python code becomes `Except`/`Option`-valued functions; an
  exception that the source lets escape a fragment is an explicit
  `escaped`/`error` value.
* The cdp generator protocol (one `next` for the request, one `send` for
  the decode step) is embedded as a `decode` function returning a
  `DecodeOut`: the generator either raises `StopIteration` with the parsed
  value, raises some other exception, or yields again.
-/

namespace Zendriver

/-! ## Association lists (embedding of Python dicts) -/

/-- Lookup in an association list, embedding Python `k in m` / `m.get(k)`. -/
def alookup {κ α : Type} [DecidableEq κ] : List (κ × α) → κ → Option α
  | [], _ => none
  | (k, v) :: rest, k0 => if k = k0 then some v else alookup rest k0

/-- Insert-or-replace in an association list, embedding `m[k] = v`. -/
def aset {κ α : Type} [DecidableEq κ] : List (κ × α) → κ → α → List (κ × α)
  | [], k0, v0 => [(k0, v0)]
  | (k, v) :: rest, k0, v0 =>
      if k = k0 then (k0, v0) :: rest else (k, v) :: aset rest k0 v0

/-- Key removal from an association list, embedding `m.pop(k)` / `del m[k]`. -/
def aerase {κ α : Type} [DecidableEq κ] : List (κ × α) → κ → List (κ × α)
  | [], _ => []
  | (k, v) :: rest, k0 =>
      if k = k0 then aerase rest k0 else (k, v) :: aerase rest k0

theorem alookup_aerase_self {κ α : Type} [DecidableEq κ] (m : List (κ × α)) (k : κ) :
    alookup (aerase m k) k = none := by
  induction m with
  | nil => rfl
  | cons hd tl ih =>
      by_cases h : hd.1 = k
      · simpa [aerase, h] using ih
      · simpa [aerase, alookup, h] using ih

theorem alookup_aerase_ne {κ α : Type} [DecidableEq κ] (m : List (κ × α)) (k k0 : κ)
    (h : k ≠ k0) : alookup (aerase m k0) k = alookup m k := by
  induction m with
  | nil => rfl
  | cons hd tl ih =>
      by_cases hh : hd.1 = k0
      · simpa [aerase, alookup, hh, Ne.symm h] using ih
      · by_cases hk : hd.1 = k
        · simp [aerase, alookup, hh, hk, h]
        · simpa [aerase, alookup, hh, hk] using ih

theorem alookup_aset_self {κ α : Type} [DecidableEq κ] (m : List (κ × α)) (k : κ) (v : α) :
    alookup (aset m k v) k = some v := by
  induction m with
  | nil => simp [aset, alookup]
  | cons hd tl ih =>
      by_cases h : hd.1 = k
      · simp [aset, alookup, h]
      · simpa [aset, alookup, h] using ih

theorem alookup_aset_ne {κ α : Type} [DecidableEq κ] (m : List (κ × α)) (k k0 : κ) (v : α)
    (h : k ≠ k0) : alookup (aset m k0 v) k = alookup m k := by
  induction m with
  | nil => simp [aset, alookup, Ne.symm h]
  | cons hd tl ih =>
      by_cases hh : hd.1 = k0
      · simp [aset, alookup, hh, Ne.symm h]
      · by_cases hk : hd.1 = k
        · simp [aset, alookup, hh, hk, h]
        · simpa [aset, alookup, hh, hk] using ih

theorem aset_ne_nil {κ α : Type} [DecidableEq κ] (m : List (κ × α)) (k : κ) (v : α) :
    aset m k v ≠ [] := by
  cases m with
  | nil => simp [aset]
  | cons hd tl =>
      by_cases h : hd.1 = k <;> simp [aset, h]

theorem alookup_isSome_ne_nil {κ α : Type} [DecidableEq κ] (m : List (κ × α)) (k : κ)
    (h : (alookup m k).isSome) : m ≠ [] := by
  cases m with
  | nil => simp [alookup] at h
  | cons hd tl => simp

/-! ## Wire-level values and exceptions -/

/-- The error object carried by an error-shaped response frame,
`{"id": n, "error": {"code": ..., "message": ...}}`; the source reads
both fields with `dict.get`, so each may be absent. -/
structure ErrObj where
  code : Option Int
  message : Option String
deriving Repr, DecidableEq

/-- Embedding of the fields `ProtocolException.__init__` stores: for a
dict argument it keeps `args[0].get("code")` and `args[0].get("message")`;
for a plain-string argument the message is the string and the code `None`. -/
structure ProtocolException where
  code : Option Int
  message : Option String
deriving Repr, DecidableEq

/-- ProtocolException built from the remote error object (dict branch). -/
def ProtocolException.ofError (e : ErrObj) : ProtocolException := ⟨e.code, e.message⟩

/-- ProtocolException built from a plain string (the fallback branch that
joins the args). -/
def ProtocolException.ofString (s : String) : ProtocolException := ⟨none, some s⟩

/-- Python exceptions that can travel through the embedded fragments. -/
inductive PyErr where
  | protocol (e : ProtocolException)
  | valueError (msg : String)
  | keyError
  | other (name : String)
deriving Repr, DecidableEq

/-- A response payload: error-shaped (carries an `error` object) or a raw
result (the untyped value under the `result` key). `R` is abstract. -/
inductive Payload (R : Type) where
  | error (e : ErrObj)
  | result (raw : R)
deriving Repr, DecidableEq

/-- Outcome of feeding the raw result into the descriptor generator
(`self.__cdp_obj__.send(response["result"])`): the generator raises
`StopIteration` carrying the parsed value, raises some other exception
(a malformed/unexpected shape), or yields again. -/
inductive DecodeOut (V : Type) where
  | stop (v : V)
  | raised (e : PyErr)
  | yielded
deriving Repr, DecidableEq

/-- What `Transaction.__call__` does with a response: mark the future
resolved with a value, mark it failed with a `ProtocolException`, or let
an exception escape to its caller (the listener loop). -/
inductive CallOutcome (V : Type) where
  | resolvedOk (v : V)
  | resolvedErr (e : ProtocolException)
  | escaped (e : PyErr)
deriving Repr, DecidableEq

/-- Embedding of `Transaction.__call__`: an error-shaped response sets a
`ProtocolException` built from the error object without touching the
decode generator; otherwise the raw result is fed to the generator, and
only a `StopIteration` resolves the future — any other exception, or the
explicit `raise ProtocolException("could not parse the cdp response...")`
when the generator yields again, escapes `__call__`. -/
def txCall {R V : Type} (decode : R → DecodeOut V) (resp : Payload R) :
    CallOutcome V :=
  match resp with
  | .error e => .resolvedErr (ProtocolException.ofError e)
  | .result raw =>
      match decode raw with
      | .stop v => .resolvedOk v
      | .raised e => .escaped e
      | .yielded =>
          .escaped (.protocol (ProtocolException.ofString
            "could not parse the cdp response"))

/-- Embedding of the `except ProtocolException` clause of `Connection.send`:
`e.message = e.message or ""` followed by appending the command method and
params before re-raising. -/
def augmentException (method params : String) (e : ProtocolException) :
    ProtocolException :=
  { e with
    message := some ((e.message.getD "") ++ "\ncommand:" ++ method
      ++ "\nparams:" ++ params) }

/-- What the caller awaiting `Connection.send` observes for a given
response frame. -/
inductive SendObs (V : Type) where
  | ok (v : V)
  | raised (e : ProtocolException)
  | hang
deriving Repr, DecidableEq

/-- Embedding of the tail of `Connection.send` (`await tx` under the
`except ProtocolException` clause): a resolved value is returned, a
resolution error is re-raised augmented with method and params, and an
outcome that escaped `Transaction.__call__` leaves the caller suspended
forever (the listener task died before the future was resolved, and the
transaction was already popped from the table). -/
def sendObserve {R V : Type} (decode : R → DecodeOut V)
    (method params : String) (resp : Payload R) : SendObs V :=
  match txCall decode resp with
  | .resolvedOk v => .ok v
  | .resolvedErr e => .raised (augmentException method params e)
  | .escaped _ => .hang

/-- Claim C1: for every response frame whose payload contains an error
object, the Transaction resolves as Failed with a ProtocolException
carrying the remote-supplied code and message, the descriptor's decode
step is not invoked (the outcome is the same for every decode function),
and the error propagating out of send() is augmented with the original
command's method and params. -/
theorem C1_error_frame_resolution {R V : Type} :
    ∀ (decode decode2 : R → DecodeOut V) (e : ErrObj) (method params : String),
      txCall decode (Payload.error e) =
        CallOutcome.resolvedErr ⟨e.code, e.message⟩ ∧
      txCall decode (Payload.error e) = txCall decode2 (Payload.error e) ∧
      sendObserve decode method params (Payload.error e) =
        SendObs.raised ⟨e.code,
          some ((e.message.getD "") ++ "\ncommand:" ++ method
            ++ "\nparams:" ++ params)⟩ := by
  intro decode decode2 e method params
  refine ⟨rfl, rfl, ?_⟩
  simp [sendObserve, txCall, augmentException, ProtocolException.ofError]

/-- Claim C9 (recording the bug): a response whose result payload has a
malformed or unexpected shape does NOT surface the decode error as a
failure on the Transaction.  Concretely, when the decode generator raises
(here a `KeyError`) or yields again, `Transaction.__call__` lets the
exception escape into the listener loop (which has no handler around
`tx(**message)`), and the awaiting send() caller hangs instead of
observing the failure. -/
theorem C9_decode_error_escapes_resolution :
    txCall (fun _ : Unit => DecodeOut.raised (V := Unit) (PyErr.other "KeyError"))
        (Payload.result ()) =
      CallOutcome.escaped (PyErr.other "KeyError") ∧
    txCall (fun _ : Unit => (DecodeOut.yielded : DecodeOut Unit))
        (Payload.result ()) =
      CallOutcome.escaped (PyErr.protocol
        (ProtocolException.ofString "could not parse the cdp response")) ∧
    sendObserve (fun _ : Unit => DecodeOut.raised (V := Unit) (PyErr.other "KeyError"))
        "Foo.bar" "x" (Payload.result ()) = SendObs.hang ∧
    ∀ v : Unit,
      sendObserve (fun _ : Unit => DecodeOut.raised (V := Unit) (PyErr.other "KeyError"))
          "Foo.bar" "x" (Payload.result ()) ≠ SendObs.raised ⟨none, some "KeyError"⟩ ∧
      sendObserve (fun _ : Unit => DecodeOut.raised (V := Unit) (PyErr.other "KeyError"))
          "Foo.bar" "x" (Payload.result ()) ≠ SendObs.ok v := by
  refine ⟨rfl, rfl, rfl, ?_⟩
  intro v
  exact ⟨by simp [sendObserve, txCall], by simp [sendObserve, txCall]⟩

/-! ## Handler removal (`Connection.remove_handlers`) -/

/-- Embedding of `Connection.remove_handlers`: the guard raises a
`ValueError` when a handler is given without an event type; with no event
type the registry is cleared; with an event type but no handler the entry
is deleted (`del` raises `KeyError` on a missing key); with both, the
handler is removed from the event's list when present (the `defaultdict`
lookup materialises an empty list for a missing key). -/
def remove_handlers {ET H : Type} [DecidableEq ET] [DecidableEq H]
    (event_type : Option ET) (handler : Option H)
    (hs : List (ET × List H)) : List (ET × List H) × Option PyErr :=
  if handler.isSome && event_type.isNone then
    (hs, some (PyErr.valueError
      "if handler is provided, event_type should be provided as well"))
  else
    match event_type with
    | none => ([], none)
    | some et =>
        match handler with
        | none =>
            match alookup hs et with
            | some _ => (aerase hs et, none)
            | none => (hs, some PyErr.keyError)
        | some h =>
            let cur := (alookup hs et).getD []
            let hs1 := if (alookup hs et).isSome then hs else aset hs et []
            if h ∈ cur then (aset hs1 et (cur.erase h), none) else (hs1, none)

/-- Claim C10: calling remove_handlers with a handler argument but no
event type always raises a ValueError and leaves the handler registry
unchanged. -/
theorem C10_remove_handlers_requires_event_type {ET H : Type}
    [DecidableEq ET] [DecidableEq H] :
    ∀ (h : H) (hs : List (ET × List H)),
      remove_handlers none (some h) hs =
        (hs, some (PyErr.valueError
          "if handler is provided, event_type should be provided as well")) := by
  intro h hs
  rfl

/-! ## Connection and Listener state -/

/-- An entry of the pending table (`Connection.mapper`): a real
`Transaction` (pending future plus its decode generator) or an
`EventTransaction` (future pre-resolved with the parsed event). -/
inductive Entry (R V E : Type) where
  | tx (decode : R → DecodeOut V)
  | eventTx (ev : E)

/-- The Connection-owned bookkeeping the listener loop works on: the
pending table `mapper`, the `itertools.count` id counter (`__count__`),
the listener's FIFO deque `_event_transaction_ids` of event-record ids
(oldest first) and the `idle` event flag. -/
structure ConnState (R V E : Type) where
  mapper : List (Int × Entry R V E)
  counter : Int
  eventIds : List Int
  idle : Bool

/-- Resolution of a pending-table entry by `tx(**message)`: a real
Transaction runs `Transaction.__call__`; an `EventTransaction`'s future is
already done, so `set_exception` raises `InvalidStateError` on an
error-shaped payload, and `None.send(...)` raises `AttributeError` on a
result payload — either exception escapes. -/
def entryCall {R V E : Type} (e : Entry R V E) (resp : Payload R) :
    CallOutcome V :=
  match e with
  | .tx decode => txCall decode resp
  | .eventTx _ =>
      match resp with
      | .error _ => .escaped (.other "InvalidStateError")
      | .result _ => .escaped (.other "AttributeError")

/-- Observable actions of the listener loop while handling a response
frame, in program order. -/
inductive LoopAction (V : Type) where
  | removed (id : Int)
  | resolved (id : Int) (outcome : CallOutcome V)
deriving DecidableEq

/-- Whether the listener task keeps running after one loop iteration,
broke out of the loop, or died with an uncaught exception. -/
inductive LoopStatus where
  | keepRunning
  | terminated
  | crashed (e : PyErr)
deriving Repr, DecidableEq

/-- An exception escaping `tx(**message)` kills the listener task. -/
def statusOfOutcome {V : Type} (out : CallOutcome V) : LoopStatus :=
  match out with
  | .escaped e => .crashed e
  | _ => .keepRunning

/-- Embedding of the response branch of `Listener.listener_loop`: a frame
whose id is in the pending table pops the Transaction first and then
resolves it; otherwise only the reserved sentinel id `-2` triggers one
more lookup (necessarily absent in this branch) and every other frame is
dropped without any effect. -/
def processResponse {R V E : Type} (st : ConnState R V E) (fid : Int)
    (resp : Payload R) :
    ConnState R V E × List (LoopAction V) × LoopStatus :=
  match alookup st.mapper fid with
  | some entry =>
      let out := entryCall entry resp
      ({ st with mapper := aerase st.mapper fid },
       [LoopAction.removed fid, LoopAction.resolved fid out],
       statusOfOutcome out)
  | none =>
      if fid = -2 then
        match alookup st.mapper (-2) with
        | some entry =>
            let out := entryCall entry resp
            (st, [LoopAction.resolved (-2) out], statusOfOutcome out)
        | none => (st, [], .keepRunning)
      else (st, [], .keepRunning)

/-! ## Event bookkeeping and id assignment -/

/-- `Listener.MAX_EVENT_TRANSACTIONS`. -/
def MAX_EVENT_TRANSACTIONS : Nat := 10000

/-- `Listener.CLEANUP_THRESHOLD`. -/
def CLEANUP_THRESHOLD : Nat := 8000

/-- Appending to the bounded deque `_event_transaction_ids`
(`maxlen=MAX_EVENT_TRANSACTIONS`): when full, the oldest entries fall off
the left. -/
def dequeAppendMax (fifo : List Int) (x : Int) : List Int :=
  let f := fifo ++ [x]
  if MAX_EVENT_TRANSACTIONS < f.length then
    f.drop (f.length - MAX_EVENT_TRANSACTIONS)
  else f

/-- The eviction loop inside `_cleanup_old_event_transactions`: `n` times,
pop the oldest tracked id off the FIFO and delete it from the pending
table when still present. -/
def cleanupTxs {R V E : Type} :
    List (Int × Entry R V E) → List Int → Nat →
      List (Int × Entry R V E) × List Int
  | mapper, fifo, 0 => (mapper, fifo)
  | mapper, fifo, n + 1 =>
      match fifo with
      | [] => (mapper, fifo)
      | oldId :: rest =>
          let m1 :=
            if (alookup mapper oldId).isSome then aerase mapper oldId else mapper
          cleanupTxs m1 rest n

/-- Embedding of `Listener._cleanup_old_event_transactions`: nothing below
the threshold; otherwise evict `len - CLEANUP_THRESHOLD // 2` of the
oldest tracked ids from both the FIFO and the pending table. -/
def cleanup_old_event_transactions {R V E : Type} (st : ConnState R V E) :
    ConnState R V E :=
  if st.eventIds.length < CLEANUP_THRESHOLD then st
  else
    let numToRemove := st.eventIds.length - CLEANUP_THRESHOLD / 2
    if numToRemove = 0 then st
    else
      let p := cleanupTxs st.mapper st.eventIds numToRemove
      { st with mapper := p.1, eventIds := p.2 }

/-- Embedding of the event-recording part of the unsolicited-event branch
of `Listener.listener_loop`: reset the shared counter when the table is
empty, give the `EventTransaction` the next id from that counter, insert
it into the pending table, track the id in the FIFO deque, then run the
synchronous cleanup.  Returns the new state and the assigned id. -/
def insertEvent {R V E : Type} (st : ConnState R V E) (ev : E) :
    ConnState R V E × Int :=
  let st1 := if st.mapper.isEmpty then { st with counter := 0 } else st
  let id := st1.counter
  let st2 := { st1 with
    counter := st1.counter + 1,
    mapper := aset st1.mapper id (Entry.eventTx ev),
    eventIds := dequeAppendMax st1.eventIds id }
  (cleanup_old_event_transactions st2, id)

/-- Embedding of the id-assignment step of `Connection.send`: reset the
`itertools.count` when the pending table is empty, draw the next id under
the `_current_id_mutex`, and register the new Transaction under that id. -/
def assignId {R V E : Type} (st : ConnState R V E)
    (decode : R → DecodeOut V) : ConnState R V E × Int :=
  let st1 := if st.mapper.isEmpty then { st with counter := 0 } else st
  let id := st1.counter
  ({ st1 with
      counter := st1.counter + 1,
      mapper := aset st1.mapper id (Entry.tx decode) }, id)

/-- A sequence of `send` id assignments on one connection with no
intervening removals, returning the assigned ids in assignment order. -/
def assignMany {R V E : Type} :
    ConnState R V E → List (R → DecodeOut V) → ConnState R V E × List Int
  | st, [] => (st, [])
  | st, d :: ds =>
      let p := assignId st d
      let q := assignMany p.1 ds
      (q.1, p.2 :: q.2)

/-! ## Handler dispatch -/

/-- The type of a registered handler: a callback invoked with the parsed
event; any error it raises stays inside its own spawned task. -/
def Handler (E : Type) : Type := E → Except PyErr Unit

/-- Embedding of the handler fan-out of the event branch: look the event's
category up in the registry and spawn one independent task per callback
(`asyncio.create_task` for coroutine callbacks, `asyncio.to_thread`
wrapped in a task for synchronous ones).  The returned list holds each
spawned invocation's own outcome; the loop never awaits them. -/
def dispatchCallbacks {E ET : Type} [DecidableEq ET]
    (hs : List (ET × List (Handler E))) (etype : ET) (ev : E) :
    List (Except PyErr Unit) :=
  match alookup hs etype with
  | none => []
  | some cbs => cbs.map (fun cb => cb ev)

/-- Embedding of the full unsolicited-event branch: record the event and
then fan out to the registered handlers. -/
def processEventFrame {R V E ET : Type} [DecidableEq ET]
    (hs : List (ET × List (Handler E))) (st : ConnState R V E)
    (etype : ET) (ev : E) : ConnState R V E × List (Except PyErr Unit) :=
  ((insertEvent st ev).1, dispatchCallbacks hs etype ev)

/-! ## The listener loop step -/

/-- One parsed incoming frame: a command response (carries an id), an
unsolicited event, or a frame the event parser rejects (logged and
skipped). -/
inductive Frame (R E ET : Type) where
  | response (id : Int) (payload : Payload R)
  | event (etype : ET) (ev : E)
  | unparseable

/-- What one bounded read of the websocket produced. -/
inductive ReadEvent (R E ET : Type) where
  | timeout
  | cancelled
  | closed
  | frame (f : Frame R E ET)

/-- Result of one iteration of `Listener.listener_loop`. -/
structure StepResult (R V E : Type) where
  state : ConnState R V E
  actions : List (LoopAction V)
  spawned : List (Except PyErr Unit)
  status : LoopStatus

/-- Embedding of one iteration of `Listener.listener_loop`: a read timeout
sets the idle flag and continues; cancellation and a closed transport
break out of the loop with the state untouched; a received frame clears
the idle flag and is demultiplexed into the response or the event
branch. -/
def readStep {R V E ET : Type} [DecidableEq ET]
    (hs : List (ET × List (Handler E))) (st : ConnState R V E)
    (r : ReadEvent R E ET) : StepResult R V E :=
  match r with
  | .timeout => ⟨{ st with idle := true }, [], [], .keepRunning⟩
  | .cancelled => ⟨st, [], [], .terminated⟩
  | .closed => ⟨st, [], [], .terminated⟩
  | .frame f =>
      let stb := { st with idle := false }
      match f with
      | .response fid payload =>
          let p := processResponse stb fid payload
          ⟨p.1, p.2.1, [], p.2.2⟩
      | .event etype ev =>
          let p := processEventFrame hs stb etype ev
          ⟨p.1, [], p.2, .keepRunning⟩
      | .unparseable => ⟨stb, [], [], .keepRunning⟩

/-! ## Response demultiplexing (C2) and transport close (C8) -/

/-- Claim C2: a response frame whose id is in the pending table removes
the Transaction from the table before resolving it (the `removed` action
precedes the `resolved` action, the id is gone from the resulting table,
and every other entry is untouched); a frame whose id has no matching
pending Transaction — other than the reserved sentinel `-2` — is dropped
without raising, without crashing the loop, and without changing any
state. -/
theorem C2_response_demultiplexing {R V E : Type} :
    (∀ (st : ConnState R V E) (fid : Int) (resp : Payload R)
        (entry : Entry R V E),
        alookup st.mapper fid = some entry →
          (processResponse st fid resp).2.1 =
            [LoopAction.removed fid,
             LoopAction.resolved fid (entryCall entry resp)] ∧
          (processResponse st fid resp).1.mapper = aerase st.mapper fid ∧
          alookup (processResponse st fid resp).1.mapper fid = none ∧
          ∀ k : Int, k ≠ fid →
            alookup (processResponse st fid resp).1.mapper k =
              alookup st.mapper k) ∧
    (∀ (st : ConnState R V E) (fid : Int) (resp : Payload R),
        alookup st.mapper fid = none → fid ≠ -2 →
          processResponse st fid resp = (st, [], LoopStatus.keepRunning)) := by
  constructor
  · intro st fid resp entry h
    refine ⟨by simp [processResponse, h], by simp [processResponse, h], ?_, ?_⟩
    · simp [processResponse, h, alookup_aerase_self]
    · intro k hk
      simp [processResponse, h, alookup_aerase_ne st.mapper k fid hk]
  · intro st fid resp h hne
    simp [processResponse, h, hne]

/-- A two-entry pending table exercising the response branch. -/
def stC2 : ConnState Unit Unit Unit :=
  { mapper := [(0, Entry.tx (fun _ => DecodeOut.stop ())),
               (1, Entry.tx (fun _ => DecodeOut.stop ()))],
    counter := 2, eventIds := [], idle := false }

theorem C2_response_demultiplexing_witness :
    (processResponse stC2 0 (Payload.result ())).2.1 =
        [LoopAction.removed 0,
         LoopAction.resolved 0 (CallOutcome.resolvedOk ())] ∧
    processResponse stC2 99999 (Payload.result ()) =
        (stC2, [], LoopStatus.keepRunning) := by
  have h1 := (C2_response_demultiplexing (R := Unit) (V := Unit) (E := Unit)).1
    stC2 0 (Payload.result ()) (Entry.tx (fun _ => DecodeOut.stop ())) rfl
  have h2 := (C2_response_demultiplexing (R := Unit) (V := Unit) (E := Unit)).2
    stC2 99999 (Payload.result ()) rfl (by decide)
  exact ⟨by rw [h1.1]; rfl, h2⟩

/-- Claim C8: a closed transport terminates the reader loop and leaves
every still-pending Transaction exactly as it was: the whole state (in
particular the pending table) is unchanged, no resolution action is
performed, nothing is spawned, and no synthetic connection-closed error
is injected anywhere. -/
theorem C8_transport_closed_abandons_pending {R V E ET : Type}
    [DecidableEq ET] :
    ∀ (hs : List (ET × List (Handler E))) (st : ConnState R V E),
      readStep hs st ReadEvent.closed =
        ⟨st, [], [], LoopStatus.terminated⟩ ∧
      (readStep hs st ReadEvent.closed).state.mapper = st.mapper := by
  intro hs st
  exact ⟨rfl, rfl⟩

/-! ## Id assignment (C6) -/

theorem aset_isEmpty_false {κ α : Type} [DecidableEq κ]
    (m : List (κ × α)) (k : κ) (v : α) : (aset m k v).isEmpty = false := by
  cases m with
  | nil => simp [aset]
  | cons hd tl => by_cases h : hd.1 = k <;> simp [aset, h]

/-- Integer range `[c, c+1, ..., c+n-1]`. -/
def intRangeFrom (c : Int) : Nat → List Int
  | 0 => []
  | n + 1 => c :: intRangeFrom (c + 1) n

theorem intRangeFrom_succ (c : Int) (n : Nat) :
    intRangeFrom c (n + 1) = c :: intRangeFrom (c + 1) n := rfl

theorem intRangeFrom_chain_lt (c : Int) (n : Nat) :
    (intRangeFrom c n).Chain' (fun a b => a < b) := by
  induction n generalizing c with
  | zero => simp [intRangeFrom]
  | succ n ih =>
      rw [intRangeFrom_succ]
      refine List.chain'_cons'.mpr ⟨?_, ih (c + 1)⟩
      intro y hy
      cases n with
      | zero => simp [intRangeFrom] at hy
      | succ m =>
          rw [intRangeFrom_succ] at hy
          simp at hy
          omega

/-- Closed form for a run of id assignments: ids count up from 0 when the
table starts empty (the counter is reset) and from the current counter
otherwise. -/
theorem assignMany_ids_eq {R V E : Type} :
    ∀ (ds : List (R → DecodeOut V)) (st : ConnState R V E),
      (assignMany st ds).2 =
        intRangeFrom (if st.mapper.isEmpty then 0 else st.counter)
          ds.length := by
  intro ds
  induction ds with
  | nil => intro st; simp [assignMany, intRangeFrom]
  | cons d ds ih =>
      intro st
      have hunfold : (assignMany st (d :: ds)).2 =
          (assignId st d).2 :: (assignMany (assignId st d).1 ds).2 := rfl
      by_cases h : st.mapper.isEmpty
      · have hA : (assignId st d).1.mapper.isEmpty = false := by
          simp [assignId, h, aset_isEmpty_false]
        have hAc : (assignId st d).1.counter = 0 + 1 := by simp [assignId, h]
        have hid : (assignId st d).2 = 0 := by simp [assignId, h]
        rw [hunfold, hid, ih, hA, hAc, if_neg (by simp), if_pos h,
          List.length_cons, intRangeFrom_succ]
      · have hA : (assignId st d).1.mapper.isEmpty = false := by
          simp [assignId, h, aset_isEmpty_false]
        have hAc : (assignId st d).1.counter = st.counter + 1 := by
          simp [assignId, h]
        have hid : (assignId st d).2 = st.counter := by simp [assignId, h]
        rw [hunfold, hid, ih, hA, hAc, if_neg (by simp), if_neg h,
          List.length_cons, intRangeFrom_succ]

/-- Claim C6: consecutive id assignments on one open connection with no
intervening removals produce pairwise-distinct ids that are strictly
increasing in assignment order; the counter restarts at 0 exactly when
the pending table is empty; and an event record draws its id from the
same counter a send would draw from. -/
theorem C6_id_assignment_monotone {R V E : Type} :
    (∀ (st : ConnState R V E) (ds : List (R → DecodeOut V)),
        ((assignMany st ds).2).Chain' (fun a b => a < b) ∧
        ((assignMany st ds).2).Pairwise (fun a b => a ≠ b)) ∧
    (∀ (st : ConnState R V E) (d : R → DecodeOut V),
        st.mapper = [] → (assignId st d).2 = 0) ∧
    (∀ (st : ConnState R V E) (d : R → DecodeOut V) (ev : E),
        (insertEvent st ev).2 = (assignId st d).2) := by
  refine ⟨?_, ?_, ?_⟩
  · intro st ds
    have h := assignMany_ids_eq ds st
    have hc := intRangeFrom_chain_lt
      (if st.mapper.isEmpty then 0 else st.counter) ds.length
    constructor
    · rw [h]; exact hc
    · rw [h]
      have hp := List.chain'_iff_pairwise.mp hc
      exact hp.imp (fun hlt => ne_of_lt hlt)
  · intro st d hst
    simp [assignId, hst]
  · intro st d ev
    rfl

theorem C6_id_assignment_monotone_witness :
    (assignId (R := Unit) (V := Unit) (E := Unit)
        ⟨[], 5, [], false⟩ (fun _ => DecodeOut.stop ())).2 = 0 :=
  (C6_id_assignment_monotone (R := Unit) (V := Unit) (E := Unit)).2.1
    ⟨[], 5, [], false⟩ (fun _ => DecodeOut.stop ()) rfl

/-! ## Event-record eviction (C3) -/

theorem aerase_of_alookup_none {κ α : Type} [DecidableEq κ] :
    ∀ (m : List (κ × α)) (k : κ), alookup m k = none → aerase m k = m := by
  intro m k
  induction m with
  | nil => intro _; rfl
  | cons hd tl ih =>
      intro h
      by_cases hh : hd.1 = k
      · simp [alookup, hh] at h
      · simp only [alookup, hh, if_neg, ite_false] at h
        simp [aerase, hh, ih h]

/-- Erase a list of keys sequentially (left fold). -/
def eraseKeys {κ α : Type} [DecidableEq κ] (m : List (κ × α)) (ks : List κ) :
    List (κ × α) :=
  ks.foldl aerase m

theorem alookup_eraseKeys {κ α : Type} [DecidableEq κ] :
    ∀ (ks : List κ) (m : List (κ × α)) (k : κ),
      alookup (eraseKeys m ks) k = if k ∈ ks then none else alookup m k := by
  intro ks
  induction ks with
  | nil => intro m k; simp [eraseKeys]
  | cons a ks ih =>
      intro m k
      have hstep : eraseKeys m (a :: ks) = eraseKeys (aerase m a) ks := rfl
      rw [hstep, ih]
      by_cases hk : k ∈ ks
      · simp [hk]
      · by_cases ha : k = a
        · subst ha
          simp [hk, alookup_aerase_self]
        · simp [hk, ha, alookup_aerase_ne m k a ha]

/-- The eviction loop erases exactly the oldest `n` tracked ids from the
table and drops them from the FIFO. -/
theorem cleanupTxs_eq {R V E : Type} :
    ∀ (n : Nat) (mapper : List (Int × Entry R V E)) (fifo : List Int),
      cleanupTxs mapper fifo n =
        (eraseKeys mapper (fifo.take n), fifo.drop n) := by
  intro n
  induction n with
  | zero => intro mapper fifo; simp [cleanupTxs, eraseKeys]
  | succ n ih =>
      intro mapper fifo
      cases fifo with
      | nil => simp [cleanupTxs, eraseKeys]
      | cons hd tl =>
          have hm : (if (alookup mapper hd).isSome then aerase mapper hd
              else mapper) = aerase mapper hd := by
            by_cases hh : (alookup mapper hd).isSome
            · simp [hh]
            · have hnone : alookup mapper hd = none := by
                cases hl : alookup mapper hd
                · rfl
                · simp [hl] at hh
              simp [hh, aerase_of_alookup_none mapper hd hnone]
          show cleanupTxs mapper (hd :: tl) (n + 1) = _
          simp only [cleanupTxs, hm, ih]
          simp [eraseKeys]

theorem dequeAppendMax_of_le (fifo : List Int) (x : Int)
    (h : fifo.length + 1 ≤ MAX_EVENT_TRANSACTIONS) :
    dequeAppendMax fifo x = fifo ++ [x] := by
  have hlt : ¬ MAX_EVENT_TRANSACTIONS < (fifo ++ [x]).length := by
    simp only [List.length_append, List.length_singleton]
    omega
  simp only [dequeAppendMax]
  rw [if_neg hlt]

/-- Unfolding of `insertEvent` into its counter-reset, id, table and FIFO
pieces followed by the synchronous cleanup. -/
theorem insertEvent_def {R V E : Type} (st : ConnState R V E) (ev : E) :
    insertEvent st ev =
      (cleanup_old_event_transactions
        { st with
          counter := (if st.mapper.isEmpty then 0 else st.counter) + 1,
          mapper := aset st.mapper
            (if st.mapper.isEmpty then 0 else st.counter) (Entry.eventTx ev),
          eventIds := dequeAppendMax st.eventIds
            (if st.mapper.isEmpty then 0 else st.counter) },
       if st.mapper.isEmpty then 0 else st.counter) := by
  by_cases h : st.mapper.isEmpty <;> simp [insertEvent, h]

/-- Cleanup at exactly the threshold: evict the oldest
`CLEANUP_THRESHOLD / 2` tracked ids from both structures. -/
theorem cleanup_at_threshold {R V E : Type} (st : ConnState R V E)
    (h : st.eventIds.length = CLEANUP_THRESHOLD) :
    cleanup_old_event_transactions st =
      { st with
        mapper := eraseKeys st.mapper
          (st.eventIds.take (CLEANUP_THRESHOLD / 2)),
        eventIds := st.eventIds.drop (CLEANUP_THRESHOLD / 2) } := by
  unfold cleanup_old_event_transactions
  rw [h]
  norm_num [CLEANUP_THRESHOLD, cleanupTxs_eq]

/-- Cleanup below the threshold is the identity. -/
theorem cleanup_below_threshold {R V E : Type} (st : ConnState R V E)
    (h : st.eventIds.length < CLEANUP_THRESHOLD) :
    cleanup_old_event_transactions st = st := by
  unfold cleanup_old_event_transactions
  rw [if_pos h]

/-- Every insertion step keeps the tracked count below the threshold. -/
theorem insertEvent_length_lt {R V E : Type} (st : ConnState R V E)
    (ev : E) (h : st.eventIds.length < CLEANUP_THRESHOLD) :
    (insertEvent st ev).1.eventIds.length < CLEANUP_THRESHOLD := by
  have hTM : CLEANUP_THRESHOLD ≤ MAX_EVENT_TRANSACTIONS := by
    norm_num [CLEANUP_THRESHOLD, MAX_EVENT_TRANSACTIONS]
  have hdq : dequeAppendMax st.eventIds
      (if st.mapper.isEmpty then 0 else st.counter) =
      st.eventIds ++ [if st.mapper.isEmpty then 0 else st.counter] :=
    dequeAppendMax_of_le _ _ (by omega)
  have hins := congrArg Prod.fst (insertEvent_def st ev)
  simp only at hins
  rw [hins, hdq]
  by_cases hcase : st.eventIds.length + 1 < CLEANUP_THRESHOLD
  · have hsmall : (st.eventIds ++
        [if st.mapper.isEmpty then 0 else st.counter]).length <
        CLEANUP_THRESHOLD := by
      simpa using hcase
    rw [cleanup_below_threshold _ hsmall]
    simpa using hcase
  · have heq : (st.eventIds ++
        [if st.mapper.isEmpty then 0 else st.counter]).length =
        CLEANUP_THRESHOLD := by
      simp only [List.length_append, List.length_singleton]
      omega
    rw [cleanup_at_threshold _ heq]
    simp only [List.length_drop, heq]
    norm_num [CLEANUP_THRESHOLD]

/-- Claim C3: when an event insertion brings the count of tracked
event-record ids to the cleanup threshold T (8000, FIFO capacity 10000),
the cleanup running synchronously right after the insertion evicts the
oldest T/2 ids from both the FIFO and the pending table: exactly T/2
tracked ids remain (all still present in the table), the oldest T/2 are
gone from the table, and every insertion step keeps the tracked count
below T (so the count is bounded by T/2 plus the insertions done since
the eviction). -/
theorem C3_event_cleanup_eviction {R V E : Type}
    (st : ConnState R V E) (ev : E)
    (hlen : st.eventIds.length = CLEANUP_THRESHOLD - 1)
    (hnd : st.eventIds.Nodup)
    (hlt : ∀ i ∈ st.eventIds, i < st.counter)
    (htrk : ∀ i ∈ st.eventIds, (alookup st.mapper i).isSome) :
    (insertEvent st ev).1.eventIds =
        (st.eventIds ++ [st.counter]).drop (CLEANUP_THRESHOLD / 2) ∧
    (insertEvent st ev).1.eventIds.length = CLEANUP_THRESHOLD / 2 ∧
    (∀ i ∈ st.eventIds.take (CLEANUP_THRESHOLD / 2),
        alookup (insertEvent st ev).1.mapper i = none) ∧
    (∀ i ∈ (insertEvent st ev).1.eventIds,
        (alookup (insertEvent st ev).1.mapper i).isSome) ∧
    (∀ (st2 : ConnState R V E) (ev2 : E),
        st2.eventIds.length < CLEANUP_THRESHOLD →
          (insertEvent st2 ev2).1.eventIds.length < CLEANUP_THRESHOLD) := by
  have hTne : st.eventIds ≠ [] := by
    intro h0
    rw [h0] at hlen
    simp [CLEANUP_THRESHOLD] at hlen
  have hmne : st.mapper ≠ [] := by
    cases hE : st.eventIds with
    | nil => exact absurd hE hTne
    | cons a l =>
        have ha : a ∈ st.eventIds := by rw [hE]; exact List.mem_cons_self a l
        exact alookup_isSome_ne_nil st.mapper a (htrk a ha)
  have hEmp : st.mapper.isEmpty = false := by
    cases hM : st.mapper with
    | nil => exact absurd hM hmne
    | cons p l => rfl
  have hcnot : st.counter ∉ st.eventIds := fun hmem =>
    lt_irrefl st.counter (hlt st.counter hmem)
  have hflen : (st.eventIds ++ [st.counter]).length = CLEANUP_THRESHOLD := by
    simp only [List.length_append, List.length_singleton, hlen]
    norm_num [CLEANUP_THRESHOLD]
  have hdq : dequeAppendMax st.eventIds st.counter =
      st.eventIds ++ [st.counter] := by
    apply dequeAppendMax_of_le
    rw [hlen]
    norm_num [CLEANUP_THRESHOLD, MAX_EVENT_TRANSACTIONS]
  have hins : (insertEvent st ev).1 =
      cleanup_old_event_transactions
        { st with counter := st.counter + 1,
                  mapper := aset st.mapper st.counter (Entry.eventTx ev),
                  eventIds := st.eventIds ++ [st.counter] } := by
    have h0 := congrArg Prod.fst (insertEvent_def st ev)
    simpa [hEmp, hdq] using h0
  have hfin : (insertEvent st ev).1 =
      { st with counter := st.counter + 1,
                mapper := eraseKeys (aset st.mapper st.counter (Entry.eventTx ev))
                  ((st.eventIds ++ [st.counter]).take (CLEANUP_THRESHOLD / 2)),
                eventIds := (st.eventIds ++ [st.counter]).drop
                  (CLEANUP_THRESHOLD / 2) } := by
    rw [hins, cleanup_at_threshold _ (by simpa using hflen)]
  have htake : (st.eventIds ++ [st.counter]).take (CLEANUP_THRESHOLD / 2) =
      st.eventIds.take (CLEANUP_THRESHOLD / 2) := by
    apply List.take_append_of_le_length
    rw [hlen]
    norm_num [CLEANUP_THRESHOLD]
  have hndf : (st.eventIds ++ [st.counter]).Nodup := by
    rw [List.nodup_append]
    refine ⟨hnd, List.nodup_singleton _, ?_⟩
    intro a ha hc
    have : a = st.counter := by simpa using hc
    rw [this] at ha
    exact hcnot ha
  refine ⟨?_, ?_, ?_, ?_, ?_⟩
  · rw [hfin]
  · rw [hfin]
    simp only [List.length_drop, hflen]
    norm_num [CLEANUP_THRESHOLD]
  · intro i hi
    rw [hfin]
    simp only
    rw [htake, alookup_eraseKeys]
    simp [hi]
  · intro i hi
    rw [hfin] at hi ⊢
    simp only at hi ⊢
    rw [htake]
    rw [alookup_eraseKeys]
    have hifull : i ∈ st.eventIds ++ [st.counter] :=
      List.drop_subset _ _ hi
    have hnottake : i ∉ st.eventIds.take (CLEANUP_THRESHOLD / 2) := by
      intro htk
      have hsplit := List.take_append_drop (CLEANUP_THRESHOLD / 2)
        (st.eventIds ++ [st.counter])
      have hnd2 : ((st.eventIds ++ [st.counter]).take (CLEANUP_THRESHOLD / 2) ++
          (st.eventIds ++ [st.counter]).drop (CLEANUP_THRESHOLD / 2)).Nodup := by
        rw [hsplit]; exact hndf
      have hdisj := (List.nodup_append.mp hnd2).2.2
      rw [htake] at hdisj
      exact hdisj htk hi
    rw [if_neg hnottake]
    by_cases hic : i = st.counter
    · rw [hic, alookup_aset_self]
      rfl
    · rw [alookup_aset_ne _ _ _ _ hic]
      have himem : i ∈ st.eventIds := by
        rcases List.mem_append.mp hifull with h1 | h1
        · exact h1
        · exact absurd (by simpa using h1) hic
      exact htrk i himem
  · intro st2 ev2 h2
    exact insertEvent_length_lt st2 ev2 h2

theorem intRangeFrom_length (c : Int) (n : Nat) :
    (intRangeFrom c n).length = n := by
  induction n generalizing c with
  | zero => rfl
  | succ n ih => simp [intRangeFrom, ih]

theorem intRangeFrom_mem_lt (c : Int) (n : Nat) :
    ∀ i ∈ intRangeFrom c n, i < c + n := by
  induction n generalizing c with
  | zero => simp [intRangeFrom]
  | succ n ih =>
      intro i hi
      rw [intRangeFrom_succ] at hi
      rcases List.mem_cons.mp hi with h | h
      · rw [h]; omega
      · have := ih (c + 1) i h
        omega

theorem intRangeFrom_nodup (c : Int) (n : Nat) :
    (intRangeFrom c n).Nodup := by
  have hp := List.chain'_iff_pairwise.mp (intRangeFrom_chain_lt c n)
  exact hp.imp (fun h => ne_of_lt h)

theorem alookup_pairs_isSome {κ α : Type} [DecidableEq κ] (g : κ → α) :
    ∀ (l : List κ) (k : κ), k ∈ l →
      (alookup (l.map (fun i => (i, g i))) k).isSome := by
  intro l
  induction l with
  | nil => intro k hk; simp at hk
  | cons a l ih =>
      intro k hk
      by_cases h : a = k
      · simp [alookup, h]
      · rcases List.mem_cons.mp hk with h1 | h1
        · exact absurd h1.symm h
        · simpa [alookup, h] using ih k h1

/-- Ids `[0, ..., CLEANUP_THRESHOLD - 2]` as integers. -/
def idsC3 : List Int := intRangeFrom 0 (CLEANUP_THRESHOLD - 1)

/-- A concrete state with the tracked count one below the threshold. -/
def stC3 : ConnState Unit Unit Unit :=
  { mapper := idsC3.map (fun i => (i, Entry.eventTx ())),
    counter := ((CLEANUP_THRESHOLD - 1 : Nat) : Int),
    eventIds := idsC3,
    idle := false }

theorem C3_event_cleanup_eviction_witness :
    stC3.eventIds.length = CLEANUP_THRESHOLD - 1 ∧
    (insertEvent stC3 ()).1.eventIds.length = CLEANUP_THRESHOLD / 2 := by
  have hlen : stC3.eventIds.length = CLEANUP_THRESHOLD - 1 :=
    intRangeFrom_length 0 (CLEANUP_THRESHOLD - 1)
  have hnd : stC3.eventIds.Nodup := intRangeFrom_nodup 0 (CLEANUP_THRESHOLD - 1)
  have hlt : ∀ i ∈ stC3.eventIds, i < stC3.counter := by
    intro i hi
    have h := intRangeFrom_mem_lt 0 (CLEANUP_THRESHOLD - 1) i hi
    have hsc : stC3.counter = ((CLEANUP_THRESHOLD - 1 : Nat) : Int) := rfl
    rw [hsc]
    omega
  have htrk : ∀ i ∈ stC3.eventIds, (alookup stC3.mapper i).isSome := by
    intro i hi
    exact alookup_pairs_isSome (fun _ => Entry.eventTx ()) idsC3 i hi
  exact ⟨hlen, (C3_event_cleanup_eviction stC3 () hlen hnd hlt htrk).2.1⟩

/-! ## Handler-failure isolation (C7) -/

/-- Claim C7: for every event dispatch, errors raised inside dispatched
handler invocations are isolated: the loop keeps running, every
registered handler for the event is invoked exactly once (the spawned
list is the pointwise application of the callbacks), the loop's resulting
state does not depend on the handler registry at all (in particular not
on any handler's outcome), and replacing one handler by a failing one
changes neither the state nor any other handler's invocation. -/
theorem C7_handler_failure_isolated {R V E ET : Type} [DecidableEq ET]
    (hs : List (ET × List (Handler E))) (st : ConnState R V E)
    (etype : ET) (ev : E) (cbs : List (Handler E))
    (h : alookup hs etype = some cbs) :
    (readStep hs st (ReadEvent.frame (Frame.event etype ev))).status =
        LoopStatus.keepRunning ∧
    (readStep hs st (ReadEvent.frame (Frame.event etype ev))).spawned =
        cbs.map (fun cb => cb ev) ∧
    (readStep hs st (ReadEvent.frame (Frame.event etype ev))).spawned.length =
        cbs.length ∧
    (∀ hs2 : List (ET × List (Handler E)),
        (readStep hs2 st (ReadEvent.frame (Frame.event etype ev))).state =
          (readStep hs st (ReadEvent.frame (Frame.event etype ev))).state) ∧
    (∀ (j : Nat) (cb2 : Handler E),
        (readStep (aset hs etype (cbs.set j cb2)) st
            (ReadEvent.frame (Frame.event etype ev))).state =
          (readStep hs st (ReadEvent.frame (Frame.event etype ev))).state ∧
        ∀ i : Nat, i ≠ j →
          (readStep (aset hs etype (cbs.set j cb2)) st
              (ReadEvent.frame (Frame.event etype ev))).spawned[i]? =
            (readStep hs st
              (ReadEvent.frame (Frame.event etype ev))).spawned[i]?) := by
  refine ⟨rfl, ?_, ?_, ?_, ?_⟩
  · simp [readStep, processEventFrame, dispatchCallbacks, h]
  · simp [readStep, processEventFrame, dispatchCallbacks, h]
  · intro hs2; rfl
  · intro j cb2
    refine ⟨rfl, ?_⟩
    intro i hij
    have hset : alookup (aset hs etype (cbs.set j cb2)) etype =
        some (cbs.set j cb2) := alookup_aset_self hs etype (cbs.set j cb2)
    simp only [readStep, processEventFrame, dispatchCallbacks, h, hset]
    rw [List.getElem?_map, List.getElem?_map,
      List.getElem?_set_ne (Ne.symm hij)]

/-- A one-handler registry exercising the dispatch branch. -/
def hsC7 : List (Nat × List (Handler Unit)) :=
  [(0, [fun _ => Except.ok ()])]

theorem C7_handler_failure_isolated_witness :
    (readStep hsC7 stC2 (ReadEvent.frame (Frame.event 0 ()))).status =
        LoopStatus.keepRunning ∧
    (readStep hsC7 stC2 (ReadEvent.frame (Frame.event 0 ()))).spawned.length
        = 1 := by
  have h := C7_handler_failure_isolated hsC7 stC2 0 ()
    [fun _ => Except.ok ()] rfl
  exact ⟨h.1, h.2.2.1⟩

/-! ## Domain (subsystem) reconciliation (C4, C5)

Embedding of `Connection._register_handlers`.  Abstract parameters:
`domainOf` is `util.cdp_get_module(event_type.__module__)`, `isType` is
`isinstance(event_type, type)`, `defaultOn` is membership in the
always-on allow-list `(cdp.target, cdp.storage)` and `enableOk` tells
whether `await self.send(domain_mod.enable(), _is_update=True)` succeeds
for a domain. -/

/-- The state threaded through the reconciliation loop: the handlers
dict, `self.enabled_domains`, the local pruned copy `enabled_domains`,
and the enable commands attempted so far (in order). -/
structure RegAcc (ET H D : Type) where
  handlers : List (ET × List H)
  enabled : List D
  temp : List D
  sent : List D

/-- One iteration of the `for event_type in self.handlers.copy()` loop:
pop empty handler lists; skip non-type keys; for an already-enabled
domain prune it from the local copy; skip always-on domains; otherwise
append the domain to the bookkeeping, attempt the enable command, and on
failure remove the just-appended entry again (the embedded
`try/except/finally` always continues). -/
def regStep {ET H D : Type} [DecidableEq ET] [DecidableEq D]
    (domainOf : ET → D) (isType : ET → Bool) (defaultOn : D → Bool)
    (enableOk : D → Bool) (acc : RegAcc ET H D) (et : ET) : RegAcc ET H D :=
  if ((alookup acc.handlers et).getD []).length = 0 then
    { acc with handlers := aerase acc.handlers et }
  else if isType et = false then acc
  else
    if domainOf et ∈ acc.enabled then
      { acc with temp := if domainOf et ∈ acc.temp then
          acc.temp.erase (domainOf et) else acc.temp }
    else if defaultOn (domainOf et) then acc
    else
      if enableOk (domainOf et) then
        { acc with enabled := acc.enabled ++ [domainOf et],
                   sent := acc.sent ++ [domainOf et] }
      else
        { acc with
            enabled := if domainOf et ∈ (acc.enabled ++ [domainOf et]) then
                (acc.enabled ++ [domainOf et]).erase (domainOf et)
              else acc.enabled ++ [domainOf et],
            sent := acc.sent ++ [domainOf et] }

/-- The reconciliation loop over the snapshot of dict keys. -/
def regLoop {ET H D : Type} [DecidableEq ET] [DecidableEq D]
    (domainOf : ET → D) (isType : ET → Bool) (defaultOn : D → Bool)
    (enableOk : D → Bool) (keys : List ET) (acc : RegAcc ET H D) :
    RegAcc ET H D :=
  keys.foldl (regStep domainOf isType defaultOn enableOk) acc

/-- The final sweep `for ed in enabled_domains: self.enabled_domains.remove(ed)`;
`list.remove` raises a `ValueError` when the value is absent. -/
def sweepRemove {D : Type} [DecidableEq D] :
    List D → List D → Except PyErr (List D)
  | [], en => .ok en
  | d :: rest, en =>
      if d ∈ en then sweepRemove rest (en.erase d)
      else .error (PyErr.valueError "list.remove(x): x not in list")

/-- The sweep's effect when it cannot raise. -/
def sweepErase {D : Type} [DecidableEq D] (temp en : List D) : List D :=
  temp.foldl (fun e x => e.erase x) en

/-- The Connection-owned registry state. -/
structure RegState (ET H D : Type) where
  handlers : List (ET × List H)
  enabled : List D

/-- Embedding of `Connection._register_handlers` (pure form; the sweep is
shown elsewhere never to raise): returns the new registry state and the
list of enable commands attempted, in order. -/
def register_handlers {ET H D : Type} [DecidableEq ET] [DecidableEq D]
    (domainOf : ET → D) (isType : ET → Bool) (defaultOn : D → Bool)
    (enableOk : D → Bool) (st : RegState ET H D) :
    RegState ET H D × List D :=
  let r := regLoop domainOf isType defaultOn enableOk
    (st.handlers.map Prod.fst) ⟨st.handlers, st.enabled, st.enabled, []⟩
  (⟨r.handlers, sweepErase r.temp r.enabled⟩, r.sent)

/-- Embedding of `Connection._register_handlers` with the final sweep's
possible `ValueError` made explicit. -/
def register_handlersE {ET H D : Type} [DecidableEq ET] [DecidableEq D]
    (domainOf : ET → D) (isType : ET → Bool) (defaultOn : D → Bool)
    (enableOk : D → Bool) (st : RegState ET H D) :
    Except PyErr (RegState ET H D × List D) :=
  let r := regLoop domainOf isType defaultOn enableOk
    (st.handlers.map Prod.fst) ⟨st.handlers, st.enabled, st.enabled, []⟩
  match sweepRemove r.temp r.enabled with
  | .ok en2 => .ok (⟨r.handlers, en2⟩, r.sent)
  | .error e => .error e

theorem erase_append_self {D : Type} [DecidableEq D] :
    ∀ (en : List D) (d : D), d ∉ en → (en ++ [d]).erase d = en := by
  intro en d h
  rw [List.erase_append_right _ h, List.erase_cons_head, List.append_nil]

section RegStepLemmas

variable {ET H D : Type} [DecidableEq ET] [DecidableEq D]
variable (domainOf : ET → D) (isType : ET → Bool) (defaultOn : D → Bool)
variable (enableOk : D → Bool)

theorem regStep_pop (acc : RegAcc ET H D) (et : ET)
    (h1 : ((alookup acc.handlers et).getD []).length = 0) :
    regStep domainOf isType defaultOn enableOk acc et =
      { acc with handlers := aerase acc.handlers et } := by
  unfold regStep
  rw [if_pos h1]

theorem regStep_skip (acc : RegAcc ET H D) (et : ET)
    (h1 : ((alookup acc.handlers et).getD []).length ≠ 0)
    (h2 : isType et = false) :
    regStep domainOf isType defaultOn enableOk acc et = acc := by
  unfold regStep
  rw [if_neg h1, if_pos h2]

theorem regStep_contains (acc : RegAcc ET H D) (et : ET)
    (h1 : ((alookup acc.handlers et).getD []).length ≠ 0)
    (h2 : isType et = true)
    (h3 : domainOf et ∈ acc.enabled) :
    regStep domainOf isType defaultOn enableOk acc et =
      { acc with temp := if domainOf et ∈ acc.temp then
          acc.temp.erase (domainOf et) else acc.temp } := by
  unfold regStep
  rw [if_neg h1, if_neg (by simp [h2]), if_pos h3]

theorem regStep_default (acc : RegAcc ET H D) (et : ET)
    (h1 : ((alookup acc.handlers et).getD []).length ≠ 0)
    (h2 : isType et = true)
    (h3 : domainOf et ∉ acc.enabled)
    (h4 : defaultOn (domainOf et) = true) :
    regStep domainOf isType defaultOn enableOk acc et = acc := by
  unfold regStep
  rw [if_neg h1, if_neg (by simp [h2]), if_neg h3, if_pos h4]

theorem regStep_send_ok (acc : RegAcc ET H D) (et : ET)
    (h1 : ((alookup acc.handlers et).getD []).length ≠ 0)
    (h2 : isType et = true)
    (h3 : domainOf et ∉ acc.enabled)
    (h4 : defaultOn (domainOf et) = false)
    (h5 : enableOk (domainOf et) = true) :
    regStep domainOf isType defaultOn enableOk acc et =
      { acc with enabled := acc.enabled ++ [domainOf et],
                 sent := acc.sent ++ [domainOf et] } := by
  unfold regStep
  rw [if_neg h1, if_neg (by simp [h2]), if_neg h3, if_neg (by simp [h4]),
    if_pos h5]

theorem regStep_send_fail (acc : RegAcc ET H D) (et : ET)
    (h1 : ((alookup acc.handlers et).getD []).length ≠ 0)
    (h2 : isType et = true)
    (h3 : domainOf et ∉ acc.enabled)
    (h4 : defaultOn (domainOf et) = false)
    (h5 : enableOk (domainOf et) = false) :
    regStep domainOf isType defaultOn enableOk acc et =
      { acc with sent := acc.sent ++ [domainOf et] } := by
  unfold regStep
  rw [if_neg h1, if_neg (by simp [h2]), if_neg h3, if_neg (by simp [h4]),
    if_neg (by simp [h5]),
    if_pos (List.mem_append_right acc.enabled (List.mem_singleton_self _)),
    erase_append_self acc.enabled (domainOf et) h3]

/-- Exhaustive description of one reconciliation step. -/
theorem regStep_shape (acc : RegAcc ET H D) (et : ET) :
    (regStep domainOf isType defaultOn enableOk acc et =
        { acc with handlers := aerase acc.handlers et }) ∨
    (regStep domainOf isType defaultOn enableOk acc et = acc) ∨
    (((alookup acc.handlers et).getD []).length ≠ 0 ∧ isType et = true ∧
      domainOf et ∈ acc.enabled ∧
      regStep domainOf isType defaultOn enableOk acc et =
        { acc with temp := if domainOf et ∈ acc.temp then
            acc.temp.erase (domainOf et) else acc.temp }) ∨
    (((alookup acc.handlers et).getD []).length ≠ 0 ∧ isType et = true ∧
      domainOf et ∉ acc.enabled ∧ enableOk (domainOf et) = true ∧
      regStep domainOf isType defaultOn enableOk acc et =
        { acc with enabled := acc.enabled ++ [domainOf et],
                   sent := acc.sent ++ [domainOf et] }) ∨
    (domainOf et ∉ acc.enabled ∧
      regStep domainOf isType defaultOn enableOk acc et =
        { acc with sent := acc.sent ++ [domainOf et] }) := by
  by_cases h1 : ((alookup acc.handlers et).getD []).length = 0
  · exact Or.inl (regStep_pop domainOf isType defaultOn enableOk acc et h1)
  by_cases h2 : isType et = false
  · exact Or.inr (Or.inl (regStep_skip domainOf isType defaultOn enableOk
      acc et h1 h2))
  have h2t : isType et = true := by
    revert h2; cases isType et <;> simp
  by_cases h3 : domainOf et ∈ acc.enabled
  · exact Or.inr (Or.inr (Or.inl ⟨h1, h2t, h3,
      regStep_contains domainOf isType defaultOn enableOk acc et h1 h2t h3⟩))
  by_cases h4 : defaultOn (domainOf et) = true
  · exact Or.inr (Or.inl (regStep_default domainOf isType defaultOn enableOk
      acc et h1 h2t h3 h4))
  have h4f : defaultOn (domainOf et) = false := by
    revert h4; cases defaultOn (domainOf et) <;> simp
  by_cases h5 : enableOk (domainOf et) = true
  · exact Or.inr (Or.inr (Or.inr (Or.inl ⟨h1, h2t, h3, h5,
      regStep_send_ok domainOf isType defaultOn enableOk acc et h1 h2t h3
        h4f h5⟩)))
  have h5f : enableOk (domainOf et) = false := by
    revert h5; cases enableOk (domainOf et) <;> simp
  exact Or.inr (Or.inr (Or.inr (Or.inr ⟨h3,
    regStep_send_fail domainOf isType defaultOn enableOk acc et h1 h2t h3
      h4f h5f⟩)))

end RegStepLemmas

theorem foldl_invariant_mem {α β : Type} (f : α → β → α) (P : α → Prop) :
    ∀ (l : List β), (∀ a b, b ∈ l → P a → P (f a b)) →
      ∀ a, P a → P (l.foldl f a) := by
  intro l
  induction l with
  | nil => intro _ a h; simpa using h
  | cons b l ih =>
      intro hstep a h
      rw [List.foldl_cons]
      exact ih (fun a2 b2 hb2 hP => hstep a2 b2 (List.mem_cons_of_mem b hb2) hP)
        (f a b) (hstep a b (List.mem_cons_self b l) h)

theorem regLoop_cons {ET H D : Type} [DecidableEq ET] [DecidableEq D]
    (domainOf : ET → D) (isType : ET → Bool) (defaultOn : D → Bool)
    (enableOk : D → Bool) (et : ET) (rest : List ET) (acc : RegAcc ET H D) :
    regLoop domainOf isType defaultOn enableOk (et :: rest) acc =
      regLoop domainOf isType defaultOn enableOk rest
        (regStep domainOf isType defaultOn enableOk acc et) := by
  unfold regLoop
  rw [List.foldl_cons]

/-- The sweep succeeds whenever every value occurs in the target at least
as often as in the sweep list, and then equals the pure fold of erases. -/
theorem sweepRemove_eq_ok {D : Type} [DecidableEq D] :
    ∀ (temp en : List D), (∀ y, List.count y temp ≤ List.count y en) →
      sweepRemove temp en = Except.ok (sweepErase temp en) := by
  intro temp
  induction temp with
  | nil => intro en _; rfl
  | cons x rest ih =>
      intro en h
      have hx : x ∈ en := by
        have hc := h x
        rw [List.count_cons_self] at hc
        exact List.count_pos_iff.mp (by omega)
      have hcounts : ∀ y, List.count y rest ≤ List.count y (en.erase x) := by
        intro y
        by_cases hy : y = x
        · subst hy
          have hc := h y
          rw [List.count_cons_self] at hc
          rw [List.count_erase_self]
          omega
        · have hc := h y
          rw [List.count_cons_of_ne hy] at hc
          rw [List.count_erase_of_ne hy]
          exact hc
      unfold sweepRemove
      rw [if_pos hx, ih (en.erase x) hcounts]
      rfl

theorem count_sweepErase {D : Type} [DecidableEq D] :
    ∀ (temp en : List D), (∀ y, List.count y temp ≤ List.count y en) →
      ∀ x, List.count x (sweepErase temp en) =
        List.count x en - List.count x temp := by
  intro temp
  induction temp with
  | nil => intro en _ x; simp [sweepErase]
  | cons y rest ih =>
      intro en h x
      have hcounts : ∀ z, List.count z rest ≤ List.count z (en.erase y) := by
        intro z
        by_cases hz : z = y
        · subst hz
          have hc := h z
          rw [List.count_cons_self] at hc
          rw [List.count_erase_self]
          omega
        · have hc := h z
          rw [List.count_cons_of_ne hz] at hc
          rw [List.count_erase_of_ne hz]
          exact hc
      have hstep : sweepErase (y :: rest) en = sweepErase rest (en.erase y) := rfl
      rw [hstep, ih (en.erase y) hcounts x]
      by_cases hx : x = y
      · subst hx
        rw [List.count_erase_self, List.count_cons_self]
        omega
      · rw [List.count_erase_of_ne hx, List.count_cons_of_ne hx]

theorem mem_sweepErase_of_not_mem {D : Type} [DecidableEq D] :
    ∀ (temp en : List D) (x : D), x ∈ en → x ∉ temp →
      x ∈ sweepErase temp en := by
  intro temp
  induction temp with
  | nil => intro en x h _; exact h
  | cons y rest ih =>
      intro en x h hx
      rw [List.mem_cons, not_or] at hx
      exact ih (en.erase y) x ((List.mem_erase_of_ne hx.1).mpr h) hx.2

theorem sweepErase_subset {D : Type} [DecidableEq D] :
    ∀ (temp en : List D) (x : D), x ∈ sweepErase temp en → x ∈ en := by
  intro temp
  induction temp with
  | nil => intro en x h; exact h
  | cons y rest ih =>
      intro en x h
      exact List.mem_of_mem_erase (ih (en.erase y) x h)

theorem alookup_mem {κ α : Type} [DecidableEq κ] :
    ∀ (m : List (κ × α)) (k : κ) (v : α),
      alookup m k = some v → (k, v) ∈ m := by
  intro m
  induction m with
  | nil => intro k v h; simp [alookup] at h
  | cons hd tl ih =>
      intro k v h
      by_cases hh : hd.1 = k
      · cases hd with
        | mk a b =>
            simp only [alookup] at h
            rw [if_pos hh] at h
            have hb : b = v := Option.some.inj h
            have ha : a = k := hh
            subst hb
            subst ha
            exact List.mem_cons_self _ _
      · have h2 : alookup tl k = some v := by simpa [alookup, hh] using h
        exact List.mem_cons_of_mem hd (ih k v h2)

theorem alookup_of_mem_nodup {κ α : Type} [DecidableEq κ] :
    ∀ (m : List (κ × α)) (p : κ × α), (m.map Prod.fst).Nodup → p ∈ m →
      alookup m p.1 = some p.2 := by
  intro m
  induction m with
  | nil => intro p _ hp; simp at hp
  | cons hd tl ih =>
      intro p hnd hp
      rcases List.mem_cons.mp hp with he | he
      · subst he
        cases p with
        | mk a b => simp [alookup]
      · have hnd2 : (hd.1 :: tl.map Prod.fst).Nodup := by
          rw [List.map_cons] at hnd
          exact hnd
        have h3 := List.nodup_cons.mp hnd2
        have hne : hd.1 ≠ p.1 := by
          intro hc
          have h1 : p.1 ∈ tl.map Prod.fst := List.mem_map_of_mem Prod.fst he
          rw [hc] at h3
          exact h3.1 h1
        simpa [alookup, hne] using ih p h3.2 he

section RegLoopLemmas

variable {ET H D : Type} [DecidableEq ET] [DecidableEq D]
variable (domainOf : ET → D) (isType : ET → Bool) (defaultOn : D → Bool)
variable (enableOk : D → Bool)

/-- The loop keeps the local copy a sub-multiset of the bookkeeping
list, so the final sweep never raises. -/
theorem regLoop_count_le (keys : List ET) (acc : RegAcc ET H D)
    (h : ∀ y, List.count y acc.temp ≤ List.count y acc.enabled) :
    ∀ y, List.count y
        (regLoop domainOf isType defaultOn enableOk keys acc).temp ≤
      List.count y
        (regLoop domainOf isType defaultOn enableOk keys acc).enabled := by
  refine foldl_invariant_mem _
    (fun a => ∀ y, List.count y a.temp ≤ List.count y a.enabled) keys ?_ acc h
  intro a et _ hP
  rcases regStep_shape domainOf isType defaultOn enableOk a et with
    h | h | ⟨_, _, _, h⟩ | ⟨_, _, _, _, h⟩ | ⟨_, h⟩
  · rw [h]; exact hP
  · rw [h]; exact hP
  · rw [h]
    intro y
    simp only
    by_cases hm : domainOf et ∈ a.temp
    · rw [if_pos hm]
      have h1 : List.count y (a.temp.erase (domainOf et)) ≤
          List.count y a.temp := by
        rw [List.count_erase]
        omega
      exact le_trans h1 (hP y)
    · rw [if_neg hm]; exact hP y
  · rw [h]
    intro y
    simp only
    rw [List.count_append]
    have := hP y
    omega
  · rw [h]; exact hP

/-- Once a domain is enabled, the loop never sends a new enable command
for it and never removes it from the bookkeeping. -/
theorem regLoop_enabled_stays (d : D) (n : Nat) (keys : List ET)
    (acc : RegAcc ET H D)
    (h : d ∈ acc.enabled ∧ List.count d acc.sent = n) :
    d ∈ (regLoop domainOf isType defaultOn enableOk keys acc).enabled ∧
      List.count d
        (regLoop domainOf isType defaultOn enableOk keys acc).sent = n := by
  refine foldl_invariant_mem _
    (fun a => d ∈ a.enabled ∧ List.count d a.sent = n) keys ?_ acc h
  intro a et _ hP
  rcases regStep_shape domainOf isType defaultOn enableOk a et with
    h | h | ⟨_, _, _, h⟩ | ⟨_, _, hn, _, h⟩ | ⟨hn, h⟩
  · rw [h]; exact hP
  · rw [h]; exact hP
  · rw [h]; exact hP
  · rw [h]
    have hne : domainOf et ≠ d := fun he => hn (he ▸ hP.1)
    refine ⟨List.mem_append_left _ hP.1, ?_⟩
    simp only
    rw [List.count_append, hP.2]
    simp [List.count_singleton, hne]
  · rw [h]
    have hne : domainOf et ≠ d := fun he => hn (he ▸ hP.1)
    refine ⟨hP.1, ?_⟩
    simp only
    rw [List.count_append, hP.2]
    simp [List.count_singleton, hne]

/-- A domain whose enable command fails is never left in the
bookkeeping by the loop. -/
theorem regLoop_fail_disabled (d : D) (hok : enableOk d = false)
    (keys : List ET) (acc : RegAcc ET H D) (h : d ∉ acc.enabled) :
    d ∉ (regLoop domainOf isType defaultOn enableOk keys acc).enabled := by
  refine foldl_invariant_mem _ (fun a => d ∉ a.enabled) keys ?_ acc h
  intro a et _ hP
  rcases regStep_shape domainOf isType defaultOn enableOk a et with
    h | h | ⟨_, _, _, h⟩ | ⟨_, _, hn, hok2, h⟩ | ⟨hn, h⟩
  · rw [h]; exact hP
  · rw [h]; exact hP
  · rw [h]; exact hP
  · rw [h]
    have hne : domainOf et ≠ d := by
      intro he
      rw [he, hok] at hok2
      exact Bool.false_ne_true hok2
    simp only
    intro hmem
    rcases List.mem_append.mp hmem with hm | hm
    · exact hP hm
    · exact hne (List.mem_singleton.mp hm).symm
  · rw [h]; exact hP

/-- Once a domain is both enabled and absent from the local copy, the
loop keeps it so. -/
theorem regLoop_keep (d : D) (keys : List ET) (acc : RegAcc ET H D)
    (h : d ∈ acc.enabled ∧ d ∉ acc.temp) :
    d ∈ (regLoop domainOf isType defaultOn enableOk keys acc).enabled ∧
      d ∉ (regLoop domainOf isType defaultOn enableOk keys acc).temp := by
  refine foldl_invariant_mem _ (fun a => d ∈ a.enabled ∧ d ∉ a.temp)
    keys ?_ acc h
  intro a et _ hP
  rcases regStep_shape domainOf isType defaultOn enableOk a et with
    h | h | ⟨_, _, _, h⟩ | ⟨_, _, hn, _, h⟩ | ⟨hn, h⟩
  · rw [h]; exact hP
  · rw [h]; exact hP
  · rw [h]
    refine ⟨hP.1, ?_⟩
    simp only
    by_cases hm : domainOf et ∈ a.temp
    · rw [if_pos hm]
      intro hc
      exact hP.2 (List.mem_of_mem_erase hc)
    · rw [if_neg hm]; exact hP.2
  · rw [h]
    exact ⟨List.mem_append_left _ hP.1, hP.2⟩
  · rw [h]; exact hP

/-- No event category of domain `d` has any handler left in `hs`. -/
def noHandlersFor (domainOf : ET → D) (isType : ET → Bool) (d : D)
    (hs : List (ET × List H)) : Prop :=
  ∀ et : ET, isType et = true → domainOf et = d →
    ((alookup hs et).getD []).length = 0

theorem noHandlersFor_aerase {d : D} {hs : List (ET × List H)}
    (h : noHandlersFor domainOf isType d hs) (et0 : ET) :
    noHandlersFor domainOf isType d (aerase hs et0) := by
  intro et ht hd
  by_cases he : et = et0
  · subst he
    rw [alookup_aerase_self]
    rfl
  · rw [alookup_aerase_ne hs et et0 he]
    exact h et ht hd

/-- When the domain `d` has no remaining handlers, the loop leaves both
occurrence counts of `d` (in the local copy and in the bookkeeping)
untouched, so the final sweep clears it. -/
theorem regLoop_no_handlers_counts (d : D) (c1 c2 : Nat) (keys : List ET)
    (acc : RegAcc ET H D)
    (h : noHandlersFor domainOf isType d acc.handlers ∧
      List.count d acc.temp = c1 ∧ List.count d acc.enabled = c2) :
    noHandlersFor domainOf isType d
        (regLoop domainOf isType defaultOn enableOk keys acc).handlers ∧
      List.count d
        (regLoop domainOf isType defaultOn enableOk keys acc).temp = c1 ∧
      List.count d
        (regLoop domainOf isType defaultOn enableOk keys acc).enabled = c2 := by
  refine foldl_invariant_mem _
    (fun a => noHandlersFor domainOf isType d a.handlers ∧
      List.count d a.temp = c1 ∧ List.count d a.enabled = c2) keys ?_ acc h
  intro a et _ hP
  rcases regStep_shape domainOf isType defaultOn enableOk a et with
    h | h | ⟨hlen, htype, _, h⟩ | ⟨hlen, htype, _, _, h⟩ | ⟨hn, h⟩
  · rw [h]
    exact ⟨noHandlersFor_aerase domainOf isType hP.1 et, hP.2.1, hP.2.2⟩
  · rw [h]; exact hP
  · rw [h]
    have hne : d ≠ domainOf et := by
      intro he
      exact hlen (hP.1 et htype he.symm)
    refine ⟨hP.1, ?_, hP.2.2⟩
    simp only
    by_cases hm : domainOf et ∈ a.temp
    · rw [if_pos hm, List.count_erase_of_ne hne]
      exact hP.2.1
    · rw [if_neg hm]; exact hP.2.1
  · rw [h]
    have hne : d ≠ domainOf et := by
      intro he
      exact hlen (hP.1 et htype he.symm)
    have hne2 : domainOf et ≠ d := fun he => hne he.symm
    refine ⟨hP.1, hP.2.1, ?_⟩
    simp only
    rw [List.count_append, hP.2.2]
    simp [List.count_singleton, hne2]
  · rw [h]; exact hP

/-- Registering any number of live event categories that all belong to
one fresh subsystem results in exactly one enable attempt (the first
live category triggers it, every later one sees the domain already
enabled), and leaves the domain enabled and pruned from the local
copy. -/
theorem regLoop_one_subsystem (d : D) (hdef : defaultOn d = false)
    (hok : enableOk d = true) :
    ∀ (keys : List ET) (acc : RegAcc ET H D),
      (∀ et ∈ keys, domainOf et = d) →
      d ∉ acc.enabled → d ∉ acc.temp →
      (∃ et ∈ keys, isType et = true ∧
        ((alookup acc.handlers et).getD []).length ≠ 0) →
      (regLoop domainOf isType defaultOn enableOk keys acc).sent =
          acc.sent ++ [d] ∧
      d ∈ (regLoop domainOf isType defaultOn enableOk keys acc).enabled ∧
      d ∉ (regLoop domainOf isType defaultOn enableOk keys acc).temp := by
  intro keys
  induction keys with
  | nil =>
      intro acc _ _ _ hex
      simp at hex
  | cons et rest ih =>
      intro acc hdom hen htemp hex
      have hdet : domainOf et = d := hdom et (List.mem_cons_self et rest)
      rw [regLoop_cons]
      by_cases h1 : ((alookup acc.handlers et).getD []).length = 0
      · rw [regStep_pop domainOf isType defaultOn enableOk acc et h1]
        obtain ⟨etw, hw, hwt, hwl⟩ := hex
        have hwne : etw ≠ et := by
          intro he
          rw [he] at hwl
          exact hwl h1
        have hwrest : etw ∈ rest := by
          rcases List.mem_cons.mp hw with he | he
          · exact absurd he hwne
          · exact he
        refine ih _ (fun e he => hdom e (List.mem_cons_of_mem et he)) hen htemp
          ⟨etw, hwrest, hwt, ?_⟩
        simp only
        rw [alookup_aerase_ne acc.handlers etw et hwne]
        exact hwl
      by_cases h2 : isType et = false
      · rw [regStep_skip domainOf isType defaultOn enableOk acc et h1 h2]
        obtain ⟨etw, hw, hwt, hwl⟩ := hex
        have hwne : etw ≠ et := by
          intro he
          rw [he] at hwt
          rw [h2] at hwt
          exact Bool.false_ne_true hwt
        have hwrest : etw ∈ rest := by
          rcases List.mem_cons.mp hw with he | he
          · exact absurd he hwne
          · exact he
        exact ih _ (fun e he => hdom e (List.mem_cons_of_mem et he)) hen htemp
          ⟨etw, hwrest, hwt, hwl⟩
      have h2t : isType et = true := by
        revert h2; cases isType et <;> simp
      have hdn : domainOf et ∉ acc.enabled := by rw [hdet]; exact hen
      rw [regStep_send_ok domainOf isType defaultOn enableOk acc et h1 h2t hdn
        (by rw [hdet]; exact hdef) (by rw [hdet]; exact hok), hdet]
      have hstep : ∀ (a : RegAcc ET H D) (e : ET), e ∈ rest →
          (d ∈ a.enabled ∧ a.sent = acc.sent ++ [d] ∧ d ∉ a.temp) →
          (d ∈ (regStep domainOf isType defaultOn enableOk a e).enabled ∧
            (regStep domainOf isType defaultOn enableOk a e).sent =
              acc.sent ++ [d] ∧
            d ∉ (regStep domainOf isType defaultOn enableOk a e).temp) := by
        intro a e he hP
        have hde : domainOf e = d := hdom e (List.mem_cons_of_mem et he)
        rcases regStep_shape domainOf isType defaultOn enableOk a e with
          h | h | ⟨_, _, _, h⟩ | ⟨_, _, hn, _, h⟩ | ⟨hn, h⟩
        · rw [h]; exact hP
        · rw [h]; exact hP
        · rw [h]
          refine ⟨hP.1, hP.2.1, ?_⟩
          simp only
          by_cases hm : domainOf e ∈ a.temp
          · rw [if_pos hm]
            intro hc
            exact hP.2.2 (List.mem_of_mem_erase hc)
          · rw [if_neg hm]; exact hP.2.2
        · rw [hde] at hn; exact absurd hP.1 hn
        · rw [hde] at hn; exact absurd hP.1 hn
      have hres := foldl_invariant_mem
        (regStep domainOf isType defaultOn enableOk)
        (fun a => d ∈ a.enabled ∧ a.sent = acc.sent ++ [d] ∧ d ∉ a.temp)
        rest hstep
        { acc with enabled := acc.enabled ++ [d], sent := acc.sent ++ [d] }
        ⟨List.mem_append_right _ (List.mem_singleton_self d), rfl, htemp⟩
      exact ⟨hres.2.1, hres.1, hres.2.2⟩

/-- While some live category of an already-enabled domain remains
registered, the loop prunes the domain from the local copy and keeps it
enabled. -/
theorem regLoop_witness_keeps (d : D) :
    ∀ (keys : List ET) (acc : RegAcc ET H D),
      acc.temp.Nodup → d ∈ acc.enabled →
      (∃ et ∈ keys, isType et = true ∧ domainOf et = d ∧
        ((alookup acc.handlers et).getD []).length ≠ 0) →
      d ∈ (regLoop domainOf isType defaultOn enableOk keys acc).enabled ∧
      d ∉ (regLoop domainOf isType defaultOn enableOk keys acc).temp := by
  intro keys
  induction keys with
  | nil =>
      intro acc _ _ hex
      simp at hex
  | cons et rest ih =>
      intro acc hnd hen hex
      rw [regLoop_cons]
      by_cases hdet : domainOf et = d ∧ isType et = true ∧
          ((alookup acc.handlers et).getD []).length ≠ 0
      · obtain ⟨hd1, hd2, hd3⟩ := hdet
        have hmem : domainOf et ∈ acc.enabled := by rw [hd1]; exact hen
        rw [regStep_contains domainOf isType defaultOn enableOk acc et hd3
          hd2 hmem]
        have htempne : d ∉ (if domainOf et ∈ acc.temp then
            acc.temp.erase (domainOf et) else acc.temp) := by
          rw [hd1]
          by_cases hm : d ∈ acc.temp
          · rw [if_pos hm]; exact hnd.not_mem_erase
          · rw [if_neg hm]; exact hm
        exact regLoop_keep domainOf isType defaultOn enableOk d rest _
          ⟨hen, htempne⟩
      · obtain ⟨etw, hw, hwt, hwd, hwl⟩ := hex
        have hwne : etw ≠ et := by
          intro he
          subst he
          exact hdet ⟨hwd, hwt, hwl⟩
        have hwrest : etw ∈ rest := by
          rcases List.mem_cons.mp hw with he | he
          · exact absurd he hwne
          · exact he
        rcases regStep_shape domainOf isType defaultOn enableOk acc et with
          h | h | ⟨_, _, _, h⟩ | ⟨_, _, hn, _, h⟩ | ⟨hn, h⟩
        · rw [h]
          refine ih _ hnd hen ⟨etw, hwrest, hwt, hwd, ?_⟩
          simp only
          rw [alookup_aerase_ne acc.handlers etw et hwne]
          exact hwl
        · rw [h]; exact ih _ hnd hen ⟨etw, hwrest, hwt, hwd, hwl⟩
        · rw [h]
          refine ih _ ?_ hen ⟨etw, hwrest, hwt, hwd, hwl⟩
          simp only
          by_cases hm : domainOf et ∈ acc.temp
          · rw [if_pos hm]
            exact hnd.erase _
          · rw [if_neg hm]; exact hnd
        · rw [h]
          exact ih _ hnd (List.mem_append_left _ hen)
            ⟨etw, hwrest, hwt, hwd, hwl⟩
        · rw [h]; exact ih _ hnd hen ⟨etw, hwrest, hwt, hwd, hwl⟩

end RegLoopLemmas

/-- Claim C4: domain reconciliation is idempotent per subsystem:
(A) registering any number of live event categories all belonging to one
fresh subsystem sends exactly one enable command for it and marks it
enabled; (B) while a subsystem is already marked enabled, reconciliation
never sends another enable command for it; (C) removing one handler
while another live handler for a category of the same subsystem remains
does not clear the enabled flag; (D) when no handler remains for any of
the subsystem's categories, the flag is cleared. -/
theorem C4_domain_reconciliation_idempotent {ET H D : Type}
    [DecidableEq ET] [DecidableEq D]
    (domainOf : ET → D) (isType : ET → Bool) (defaultOn : D → Bool)
    (enableOk : D → Bool) :
    (∀ (st : RegState ET H D) (d : D),
        (st.handlers.map Prod.fst).Nodup →
        (∀ p ∈ st.handlers, domainOf p.1 = d) →
        (∃ p ∈ st.handlers, isType p.1 = true ∧ p.2 ≠ []) →
        d ∉ st.enabled → defaultOn d = false → enableOk d = true →
        (register_handlers domainOf isType defaultOn enableOk st).2 = [d] ∧
        d ∈ (register_handlers domainOf isType defaultOn
          enableOk st).1.enabled) ∧
    (∀ (st : RegState ET H D) (d : D), d ∈ st.enabled →
        d ∉ (register_handlers domainOf isType defaultOn enableOk st).2) ∧
    (∀ (st : RegState ET H D) (d : D),
        (st.handlers.map Prod.fst).Nodup → st.enabled.Nodup →
        d ∈ st.enabled →
        (∃ p ∈ st.handlers, isType p.1 = true ∧ domainOf p.1 = d ∧
          p.2 ≠ []) →
        d ∈ (register_handlers domainOf isType defaultOn
          enableOk st).1.enabled) ∧
    (∀ (st : RegState ET H D) (d : D), d ∈ st.enabled →
        (∀ p ∈ st.handlers, isType p.1 = true → domainOf p.1 = d →
          p.2 = []) →
        d ∉ (register_handlers domainOf isType defaultOn
          enableOk st).1.enabled) := by
  refine ⟨?_, ?_, ?_, ?_⟩
  · intro st d hkeys hdom hex hen hdef hok
    obtain ⟨p, hp, hpt, hpl⟩ := hex
    have hlk : alookup st.handlers p.1 = some p.2 :=
      alookup_of_mem_nodup st.handlers p hkeys hp
    have hexk : ∃ et ∈ st.handlers.map Prod.fst, isType et = true ∧
        ((alookup st.handlers et).getD []).length ≠ 0 := by
      refine ⟨p.1, List.mem_map_of_mem Prod.fst hp, hpt, ?_⟩
      rw [hlk]
      intro h0
      exact hpl (List.length_eq_zero.mp h0)
    have hdomk : ∀ et ∈ st.handlers.map Prod.fst, domainOf et = d := by
      intro et he
      obtain ⟨p2, hp2, rfl⟩ := List.mem_map.mp he
      exact hdom p2 hp2
    have hmain := regLoop_one_subsystem domainOf isType defaultOn enableOk d
      hdef hok (st.handlers.map Prod.fst)
      ⟨st.handlers, st.enabled, st.enabled, []⟩ hdomk hen hen hexk
    constructor
    · unfold register_handlers
      simp only
      rw [hmain.1]
      rfl
    · unfold register_handlers
      simp only
      exact mem_sweepErase_of_not_mem _ _ d hmain.2.1 hmain.2.2
  · intro st d hen
    have h := regLoop_enabled_stays domainOf isType defaultOn enableOk d 0
      (st.handlers.map Prod.fst) ⟨st.handlers, st.enabled, st.enabled, []⟩
      ⟨hen, rfl⟩
    unfold register_handlers
    simp only
    exact List.count_eq_zero.mp h.2
  · intro st d hkeys hnd hen hex
    obtain ⟨p, hp, hpt, hpd, hpl⟩ := hex
    have hlk : alookup st.handlers p.1 = some p.2 :=
      alookup_of_mem_nodup st.handlers p hkeys hp
    have h := regLoop_witness_keeps domainOf isType defaultOn enableOk d
      (st.handlers.map Prod.fst) ⟨st.handlers, st.enabled, st.enabled, []⟩
      hnd hen
      ⟨p.1, List.mem_map_of_mem Prod.fst hp, hpt, hpd, by
        rw [hlk]
        intro h0
        exact hpl (List.length_eq_zero.mp h0)⟩
    unfold register_handlers
    simp only
    exact mem_sweepErase_of_not_mem _ _ d h.1 h.2
  · intro st d hen hall
    have hnh : noHandlersFor domainOf isType d st.handlers := by
      intro et ht hd
      cases hl : alookup st.handlers et with
      | none => rfl
      | some v =>
          have hv := alookup_mem st.handlers et v hl
          have hv2 : v = [] := hall (et, v) hv ht hd
          simp [hv2]
    have hcnt := regLoop_count_le domainOf isType defaultOn enableOk
      (st.handlers.map Prod.fst) ⟨st.handlers, st.enabled, st.enabled, []⟩
      (fun y => le_refl _)
    have hc := regLoop_no_handlers_counts domainOf isType defaultOn enableOk d
      (List.count d st.enabled) (List.count d st.enabled)
      (st.handlers.map Prod.fst) ⟨st.handlers, st.enabled, st.enabled, []⟩
      ⟨hnh, rfl, rfl⟩
    unfold register_handlers
    simp only
    intro hmem
    have h0 := count_sweepErase _ _ hcnt d
    rw [hc.2.1, hc.2.2] at h0
    have hz : List.count d (sweepErase
        (regLoop domainOf isType defaultOn enableOk
          (st.handlers.map Prod.fst)
          ⟨st.handlers, st.enabled, st.enabled, []⟩).temp
        (regLoop domainOf isType defaultOn enableOk
          (st.handlers.map Prod.fst)
          ⟨st.handlers, st.enabled, st.enabled, []⟩).enabled) = 0 := by
      omega
    exact absurd hmem (List.count_eq_zero.mp hz)

/-- A two-category registry for one subsystem. -/
def stC4 : RegState Nat Nat Int := ⟨[(1, [10]), (2, [20])], []⟩

theorem C4_domain_reconciliation_idempotent_witness :
    (register_handlers (fun _ : Nat => (0 : Int)) (fun _ => true)
        (fun _ => false) (fun _ => true) stC4).2 = [0] ∧
    (0 : Int) ∈ (register_handlers (fun _ : Nat => (0 : Int)) (fun _ => true)
        (fun _ => false) (fun _ => true) stC4).1.enabled := by
  exact (C4_domain_reconciliation_idempotent (fun _ : Nat => (0 : Int))
    (fun _ => true) (fun _ => false) (fun _ => true)).1 stC4 0
    (by decide) (fun p _ => rfl)
    ⟨(1, [10]), List.mem_cons_self _ _, rfl, by simp⟩
    (by simp [stC4]) rfl rfl

/-- Claim C5: a failed enable command is contained: the reconciliation
never raises out of the send() path (the exception-aware embedding
always returns ok, agreeing with the pure result), the failed
subsystem's bookkeeping entry is removed so it is treated as
still-disabled, and the loop proceeds with the remaining snapshot keys,
the failed attempt merely being recorded. -/
theorem C5_enable_failure_contained {ET H D : Type}
    [DecidableEq ET] [DecidableEq D]
    (domainOf : ET → D) (isType : ET → Bool) (defaultOn : D → Bool)
    (enableOk : D → Bool) :
    (∀ st : RegState ET H D,
        register_handlersE domainOf isType defaultOn enableOk st =
          Except.ok (register_handlers domainOf isType defaultOn
            enableOk st)) ∧
    (∀ (st : RegState ET H D) (d : D), enableOk d = false →
        d ∉ st.enabled →
        d ∉ (register_handlers domainOf isType defaultOn
          enableOk st).1.enabled) ∧
    (∀ (acc : RegAcc ET H D) (et : ET) (rest : List ET),
        ((alookup acc.handlers et).getD []).length ≠ 0 →
        isType et = true →
        domainOf et ∉ acc.enabled →
        defaultOn (domainOf et) = false →
        enableOk (domainOf et) = false →
        regLoop domainOf isType defaultOn enableOk (et :: rest) acc =
          regLoop domainOf isType defaultOn enableOk rest
            { acc with sent := acc.sent ++ [domainOf et] }) := by
  refine ⟨?_, ?_, ?_⟩
  · intro st
    have hcnt := regLoop_count_le domainOf isType defaultOn enableOk
      (st.handlers.map Prod.fst) ⟨st.handlers, st.enabled, st.enabled, []⟩
      (fun y => le_refl _)
    unfold register_handlersE register_handlers
    simp only
    rw [sweepRemove_eq_ok _ _ hcnt]
  · intro st d hok hen
    have h := regLoop_fail_disabled domainOf isType defaultOn enableOk d hok
      (st.handlers.map Prod.fst) ⟨st.handlers, st.enabled, st.enabled, []⟩
      hen
    unfold register_handlers
    simp only
    intro hmem
    exact h (sweepErase_subset _ _ d hmem)
  · intro acc et rest h1 h2 h3 h4 h5
    rw [regLoop_cons, regStep_send_fail domainOf isType defaultOn enableOk
      acc et h1 h2 h3 h4 h5]

/-- A one-category registry whose subsystem's enable command fails. -/
def stC5 : RegState Nat Nat Int := ⟨[(1, [10])], []⟩

theorem C5_enable_failure_contained_witness :
    register_handlersE (fun _ : Nat => (0 : Int)) (fun _ => true)
        (fun _ => false) (fun _ => false) stC5 =
      Except.ok (register_handlers (fun _ : Nat => (0 : Int)) (fun _ => true)
        (fun _ => false) (fun _ => false) stC5) ∧
    (0 : Int) ∉ (register_handlers (fun _ : Nat => (0 : Int)) (fun _ => true)
        (fun _ => false) (fun _ => false) stC5).1.enabled := by
  have h := C5_enable_failure_contained (H := Nat) (fun _ : Nat => (0 : Int))
    (fun _ => true) (fun _ => false) (fun _ => false)
  exact ⟨h.1 stC5, h.2.1 stC5 0 rfl (by simp [stC5])⟩

end Zendriver
